import Mathlib

/-!
# Verification of the FSB transaction-categorization pipeline

A shallow embedding of the categorization pipeline of this repository
(`app/categorization/fuzzy_matcher.py` and `app/categorization/ai_categorizer.py`),
together with theorems settling the frozen claims about it.

Modelling conventions:
* Python `float` amounts, confidences and range bounds are modelled as `ℚ`
  (the claims concern exact branch structure and formulas, not rounding).
* Python strings are modelled as Lean `String` / `List Char`; the regex
  character classes `\d`, `\s`, `\w` and `str.lower` are modelled on their
  ASCII meaning (amply documented at each definition).
* Python exceptions are modelled with `Except Unit`; a `try/except` handler
  becomes a `match` on the `Except` value.
* The external model call (`anthropic`) and `json.loads` are modelled by a
  per-batch outcome value: transport failure, unparsable text, or a parsed
  list of result records.
-/

deriving instance DecidableEq for Except

namespace FSB

/-! ## Character helpers (ASCII models of Python's character classes) -/

/-- Model of the regex class `[a-z]`. -/
def isLowAZ (c : Char) : Bool := 'a' ≤ c && c ≤ 'z'

/-- Model of the regex class `\d` (ASCII digits `0`-`9`). -/
def isDig (c : Char) : Bool := '0' ≤ c && c ≤ '9'

/-- Model of the regex class `\s` and of the separators recognised by
`str.split()` / `str.strip()` (ASCII whitespace). -/
def isPySpace (c : Char) : Bool :=
  c = ' ' || c = '\t' || c = '\n' || c = '\x0b' || c = '\x0c' || c = '\r'

/-- Model of the regex class `\w` (word characters, ASCII): letters, digits
and underscore. -/
def isWordChar (c : Char) : Bool :=
  isLowAZ c || ('A' ≤ c && c ≤ 'Z') || isDig c || c = '_'

/-- The date separators `[slash or hyphen]` of the date regexes. -/
def isSep (c : Char) : Bool := c = '/' || c = '-'

/-- Model of `str.lower` (ASCII case folding). -/
def charLower (c : Char) : Char :=
  if 'A' ≤ c && c ≤ 'Z' then Char.ofNat (c.toNat + 32) else c

/-- `str.lower` on a character list. -/
def pyLower (l : List Char) : List Char := l.map charLower

/-- Model of `str.strip()`: remove leading and trailing whitespace. -/
def pyStrip (l : List Char) : List Char :=
  ((l.dropWhile isPySpace).reverse.dropWhile isPySpace).reverse

/-! ## The short-description normalizer (`FuzzyMatcher._create_short_description`)

The function is a pipeline of regex-based cuts; each stage below models one
statement of the Python source, in source order.  The `try/except` fallback
of the source (`return description[:20]`) is unreachable for string inputs:
every operation in the body is total on strings, so the body is modelled as
a total function. -/

/-- The domain extensions of the pattern `\.(?:com|net|org|edu|gov|io|co|us|uk|ca)`. -/
def domainExts : List (List Char) :=
  ["com".data, "net".data, "org".data, "edu".data, "gov".data,
   "io".data, "co".data, "us".data, "uk".data, "ca".data]

/-- `re.split(domain_pattern, desc)[0]`: the prefix of the string before the
first `.` that is immediately followed by one of the domain extensions
(`[^\s]*` matches the empty string, so only the match start matters). -/
def domainCut : List Char → List Char
  | [] => []
  | c :: cs =>
    if c = '.' && domainExts.any (fun e => e.isPrefixOf cs) then []
    else c :: domainCut cs

/-- Remainders after consuming `\d{1,2}` (one or two ASCII digits). -/
def take1or2Digits (cs : List Char) : List (List Char) :=
  match cs with
  | a :: rest =>
    if isDig a then
      rest :: (match rest with
               | b :: rest2 => if isDig b then [rest2] else []
               | [] => [])
    else []
  | [] => []

/-- Remainder after consuming one separator `[slash or hyphen]`. -/
def takeSep (cs : List Char) : List (List Char) :=
  match cs with
  | s :: rest => if isSep s then [rest] else []
  | [] => []

/-- `True` when the list starts with at least two ASCII digits (`\d{2,4}`
only needs two digits for a prefix match to exist). -/
def startsWith2Digits (cs : List Char) : Bool :=
  match cs with
  | a :: b :: _ => isDig a && isDig b
  | _ => false

/-- A match of `\d{1,2}[slash or hyphen]\d{1,2}` starts at the head of the list. -/
def matchDate1 (cs : List Char) : Bool :=
  (take1or2Digits cs).any fun r1 =>
    (takeSep r1).any fun r2 =>
      match r2 with
      | d :: _ => isDig d
      | [] => false

/-- A match of `\d{1,2}[slash or hyphen]\d{1,2}[slash or hyphen]\d{2,4}` starts at the head of the list. -/
def matchDate2 (cs : List Char) : Bool :=
  (take1or2Digits cs).any fun r1 =>
    (takeSep r1).any fun r2 =>
      (take1or2Digits r2).any fun r3 =>
        (takeSep r3).any fun r4 => startsWith2Digits r4

/-- A match of `\d{1,2}:\d{2}(?::\d{2})?(?:\s*[AaPp][Mm])?` starts at the head
of the list (the optional groups never affect whether a match exists). -/
def matchTime (cs : List Char) : Bool :=
  (take1or2Digits cs).any fun r1 =>
    match r1 with
    | ':' :: a :: b :: _ => isDig a && isDig b
    | _ => false

/-- `re.split(pattern, desc)[0]` for a pattern of the form `\b<body>` whose
body starts with `\d`: keep the prefix of the string before the first
position where the previous character (if any) is a non-word character and
`body` matches.  `prev` is the character preceding the current position. -/
def cutAtBody (body : List Char → Bool) : Option Char → List Char → List Char
  | _, [] => []
  | prev, c :: cs =>
    if (match prev with
        | none => true
        | some p => !isWordChar p) && body (c :: cs) then []
    else c :: cutAtBody body (some c) cs

/-- `re.sub(r'^\d+\s+', '', desc)`: drop a leading run of digits together
with the following run of whitespace (only when both are present). -/
def stripLeadingNum (l : List Char) : List Char :=
  let ds := l.takeWhile isDig
  let rest := l.dropWhile isDig
  if ds ≠ [] && rest.takeWhile isPySpace ≠ [] then rest.dropWhile isPySpace
  else l

/-- Accumulator-based worker for `str.split()` (split on whitespace, no empty
tokens); `acc` holds the current token reversed. -/
def splitAux : List Char → List Char → List (List Char)
  | [], acc => if acc.isEmpty then [] else [acc.reverse]
  | c :: cs, acc =>
    if isPySpace c then
      if acc.isEmpty then splitAux cs [] else acc.reverse :: splitAux cs []
    else splitAux cs (c :: acc)

/-- Model of `str.split()`. -/
def pySplit (l : List Char) : List (List Char) := splitAux l []

/-- Model of `' '.join(tokens)`. -/
def joinSp : List (List Char) → List Char
  | [] => []
  | [t] => t
  | t :: ts => t ++ ' ' :: joinSp ts

/-- The list starts with four consecutive ASCII digits. -/
def startsWith4Digits (cs : List Char) : Bool :=
  match cs with
  | a :: b :: c :: d :: _ => isDig a && isDig b && isDig c && isDig d
  | _ => false

/-- `re.search(r'\d{4,}', part)`: the token contains four consecutive digits. -/
def has4Digits : List Char → Bool
  | [] => false
  | c :: cs => startsWith4Digits (c :: cs) || has4Digits cs

/-- Keep tokens up to (excluding) the first token containing a 4+-digit run. -/
def takeTokens : List (List Char) → List (List Char)
  | [] => []
  | t :: ts => if has4Digits t then [] else t :: takeTokens ts

/-- A character of the regex class `[a-z0-9\s&]`. -/
def isKeptChar (c : Char) : Bool := isLowAZ c || isDig c || isPySpace c || c = '&'

/-- `re.split(r'[^a-z0-9\s&]', desc)[0]`: prefix before the first character
outside the class `[a-z0-9\s&]`. -/
def specialCut (l : List Char) : List Char := l.takeWhile isKeptChar

/-- `re.sub(r'\s+\d+\s*$', '', desc)`: remove a final run of whitespace
followed by digits (followed by optional whitespace) at the end of the
string; when the string does not end that way it is returned unchanged. -/
def stripTrailingNum (l : List Char) : List Char :=
  let r := l.reverse
  let r1 := r.dropWhile isPySpace
  let r2 := r1.dropWhile isDig
  if r2.length < r1.length then
    match r2 with
    | c :: _ => if isPySpace c then (r2.dropWhile isPySpace).reverse else l
    | [] => l
  else l

/-- The body of `FuzzyMatcher._create_short_description`, stage by stage, on
character lists. -/
def normList (l : List Char) : List Char :=
  let d0 := pyStrip (pyLower l)
  let d1 := domainCut d0
  let d2 := pyStrip (cutAtBody matchDate1 none d1)
  let d3 := pyStrip (cutAtBody matchDate2 none d2)
  let d4 := pyStrip (cutAtBody matchTime none d3)
  let d5 := stripLeadingNum d4
  let d6 := joinSp (takeTokens (pySplit d5))
  let d7 := specialCut d6
  let d8 := stripTrailingNum d7
  let d9 := joinSp (pySplit d8)
  pyStrip (d9.take 20)

/-- `FuzzyMatcher._create_short_description`: the short-description
normalizer.  (Its `except` fallback `description[:20]` is dead code for
string inputs: the body raises no exception.) -/
def normalize (s : String) : String := ⟨normList s.data⟩

/-! ### Lemmas about the normalizer (for claim C4) -/

/-- The allowed output alphabet of the normalizer: lowercase ASCII letters,
ASCII digits, the space character, and `&`. -/
def isCleanChar (c : Char) : Prop :=
  isLowAZ c = true ∨ isDig c = true ∨ c = ' ' ∨ c = '&'

theorem mem_pyStrip {c : Char} {l : List Char} (h : c ∈ pyStrip l) : c ∈ l := by
  unfold pyStrip at h
  rw [List.mem_reverse] at h
  exact (List.dropWhile_sublist _).subset
    (List.mem_reverse.mp ((List.dropWhile_sublist _).subset h))

theorem length_pyStrip_le (l : List Char) : (pyStrip l).length ≤ l.length := by
  unfold pyStrip
  rw [List.length_reverse]
  calc ((l.dropWhile isPySpace).reverse.dropWhile isPySpace).length
      ≤ (l.dropWhile isPySpace).reverse.length := (List.dropWhile_sublist _).length_le
    _ = (l.dropWhile isPySpace).length := List.length_reverse _
    _ ≤ l.length := (List.dropWhile_sublist _).length_le

theorem mem_stripTrailingNum {c : Char} {l : List Char}
    (h : c ∈ stripTrailingNum l) : c ∈ l := by
  simp only [stripTrailingNum] at h
  split at h
  · split at h
    · split at h
      · rw [List.mem_reverse] at h
        exact List.mem_reverse.mp
          ((List.dropWhile_sublist _).subset
            ((List.dropWhile_sublist _).subset ((List.dropWhile_sublist _).subset h)))
      · exact h
    · exact h
  · exact h

theorem mem_joinSp {c : Char} : ∀ {ts : List (List Char)},
    c ∈ joinSp ts → c = ' ' ∨ ∃ t ∈ ts, c ∈ t
  | [], h => by simp [joinSp] at h
  | [t], h => by
      right; exact ⟨t, by simp, h⟩
  | t :: t' :: ts, h => by
      have he : joinSp (t :: t' :: ts) = t ++ ' ' :: joinSp (t' :: ts) := rfl
      rw [he] at h
      rcases List.mem_append.mp h with h1 | h2
      · exact .inr ⟨t, by simp, h1⟩
      · rcases List.mem_cons.mp h2 with rfl | h3
        · exact .inl rfl
        · rcases mem_joinSp h3 with h4 | ⟨u, hu, hcu⟩
          · exact .inl h4
          · exact .inr ⟨u, List.mem_cons_of_mem _ hu, hcu⟩

theorem splitAux_chars : ∀ (l acc : List Char),
    (∀ c ∈ acc, isPySpace c = false) →
    ∀ t ∈ splitAux l acc, ∀ c ∈ t, (c ∈ l ∨ c ∈ acc) ∧ isPySpace c = false := by
  intro l
  induction l with
  | nil =>
    intro acc hacc t ht c hc
    rw [splitAux] at ht
    split at ht
    · simp at ht
    · rcases List.mem_singleton.mp ht with rfl
      rw [List.mem_reverse] at hc
      exact ⟨.inr hc, hacc c hc⟩
  | cons a as ih =>
    intro acc hacc t ht c hc
    rw [splitAux] at ht
    split at ht
    · split at ht
      · rcases (ih [] (by simp) t ht c hc) with ⟨hm | hm, hsp⟩
        · exact ⟨.inl (List.mem_cons_of_mem _ hm), hsp⟩
        · simp at hm
      · rcases List.mem_cons.mp ht with rfl | ht'
        · rw [List.mem_reverse] at hc
          exact ⟨.inr hc, hacc c hc⟩
        · rcases (ih [] (by simp) t ht' c hc) with ⟨hm | hm, hsp⟩
          · exact ⟨.inl (List.mem_cons_of_mem _ hm), hsp⟩
          · simp at hm
    · rename_i hna
      have hacc' : ∀ c ∈ a :: acc, isPySpace c = false := by
        intro x hx
        rcases List.mem_cons.mp hx with rfl | hx'
        · exact Bool.of_not_eq_true hna
        · exact hacc x hx'
      rcases (ih (a :: acc) hacc' t ht c hc) with ⟨hm | hm, hsp⟩
      · exact ⟨.inl (List.mem_cons_of_mem _ hm), hsp⟩
      · rcases List.mem_cons.mp hm with rfl | hm'
        · exact ⟨.inl (List.mem_cons_self _ _), hsp⟩
        · exact ⟨.inr hm', hsp⟩

theorem pySplit_chars {l : List Char} {t : List Char} (ht : t ∈ pySplit l)
    {c : Char} (hc : c ∈ t) : c ∈ l ∧ isPySpace c = false := by
  rcases splitAux_chars l [] (by simp) t ht c hc with ⟨hm | hm, hsp⟩
  · exact ⟨hm, hsp⟩
  · simp at hm

/-- C4, proved for the whole pipeline: every character of the normalizer
output is a lowercase letter, a digit, a space or `&`, and the output is at
most 20 characters long. -/
theorem normList_short_and_clean (l : List Char) :
    (normList l).length ≤ 20 ∧ ∀ c ∈ normList l, isCleanChar c := by
  unfold normList
  set d6 := joinSp (takeTokens (pySplit (stripLeadingNum
    (pyStrip (cutAtBody matchTime none (pyStrip (cutAtBody matchDate2 none
      (pyStrip (cutAtBody matchDate1 none (domainCut (pyStrip (pyLower l)))))))))))) with hd6
  set d7 := specialCut d6 with hd7
  set d8 := stripTrailingNum d7 with hd8
  set d9 := joinSp (pySplit d8) with hd9
  constructor
  · calc (pyStrip (d9.take 20)).length ≤ (d9.take 20).length := length_pyStrip_le _
      _ ≤ 20 := List.length_take_le _ _
  · intro c hc
    have hc9 : c ∈ d9 := List.take_subset 20 d9 (mem_pyStrip hc)
    rcases mem_joinSp hc9 with rfl | ⟨t, ht, hct⟩
    · exact .inr (.inr (.inl rfl))
    · rcases pySplit_chars ht hct with ⟨hc8, hnsp⟩
      have hc7 : c ∈ d7 := mem_stripTrailingNum hc8
      have hkept : isKeptChar c = true := List.mem_takeWhile_imp hc7
      unfold isKeptChar at hkept
      rcases Bool.or_eq_true_iff.mp hkept with h | h
      · rcases Bool.or_eq_true_iff.mp h with h' | h'
        · rcases Bool.or_eq_true_iff.mp h' with h'' | h''
          · exact .inl h''
          · exact .inr (.inl h'')
        · rw [h'] at hnsp; cases hnsp
      · exact .inr (.inr (.inr (by simpa using h)))

/-! ## The fuzzy scorer (model of `thefuzz.fuzz.token_sort_ratio`)

`thefuzz` is an external dependency (not part of this repository); it is
modelled here concretely after its rapidfuzz backend: `ratio` is the
normalized indel similarity `200 * lcs(a,b) / (len a + len b)` rounded to
the nearest integer (Python `round`, half-to-even), and `token_sort_ratio`
applies it to the whitespace-sorted tokens of the two strings after
`utils.full_process` (ASCII-fold, replace non-word characters by spaces,
lowercase, strip). -/

/-- Longest-common-subsequence length, with explicit fuel so that the
definition is structurally recursive (fuel `≥ |as| + |bs|` suffices). -/
def lcsLenF : Nat → List Char → List Char → Nat
  | 0, _, _ => 0
  | _ + 1, [], _ => 0
  | _ + 1, _, [] => 0
  | f + 1, a :: as, b :: bs =>
    if a = b then lcsLenF f as bs + 1
    else max (lcsLenF f (a :: as) bs) (lcsLenF f as (b :: bs))

/-- Longest-common-subsequence length of two character lists. -/
def lcsLen (as bs : List Char) : Nat := lcsLenF (as.length + bs.length) as bs

/-- Python's `round(a / b)` for integers `a` and `b` with `b > 0`, computed
without leaving `ℤ`: `f` is the floor of the quotient and `r` its remainder,
and the half-to-even rule compares `r / b` with `1/2` via `2r` versus `b`. -/
def pyRoundRatio (a b : ℤ) : ℤ :=
  let f := Int.fdiv a b
  let r := a - f * b
  if 2 * r < b then f
  else if b < 2 * r then f + 1
  else if f % 2 = 0 then f else f + 1

/-- `thefuzz.utils.full_process(s, force_ascii=True)`: drop non-ASCII
characters, replace non-word characters (regex `\W`) by spaces, lowercase,
and strip. -/
def fullProcess (s : String) : String :=
  ⟨pyStrip (pyLower ((s.data.filter (fun c => c.toNat < 128)).map
    (fun c => if isWordChar c then c else ' ')))⟩

/-- Lexicographic comparison of character lists by code point (Python `<=`
on strings restricted to a total Boolean test). -/
def lexLe : List Char → List Char → Bool
  | [], _ => true
  | _ :: _, [] => false
  | a :: as, b :: bs =>
    if a.toNat < b.toNat then true
    else if b.toNat < a.toNat then false
    else lexLe as bs

/-- Insert into a lexicographically sorted list of strings. -/
def strInsert (s : String) : List String → List String
  | [] => [s]
  | t :: ts => if lexLe s.data t.data then s :: t :: ts else t :: strInsert s ts

/-- Sort a list of strings lexicographically (Python `sorted`). -/
def sortStrings : List String → List String
  | [] => []
  | s :: ss => strInsert s (sortStrings ss)

/-- The token-sort preprocessing: `full_process`, split on whitespace, sort
the tokens, and join them with single spaces. -/
def tokenSortPrep (s : String) : String :=
  ⟨joinSp ((sortStrings ((pySplit (fullProcess s).data).map
    (fun t => (⟨t⟩ : String)))).map String.data)⟩

/-- `thefuzz.fuzz.ratio` (rapidfuzz backend): normalized indel similarity
`round(200 * lcs / (m + n))`, an integer between 0 and 100 (`100` for two
empty strings). -/
def fuzzSim (a b : String) : ℤ :=
  let m := a.data.length
  let n := b.data.length
  if m + n = 0 then 100
  else pyRoundRatio (200 * (lcsLen a.data b.data : ℤ)) ((m : ℤ) + (n : ℤ))

/-- `thefuzz.fuzz.token_sort_ratio`. -/
def tokenSortSim (a b : String) : ℤ := fuzzSim (tokenSortPrep a) (tokenSortPrep b)

/-! ## `FuzzyMatcher._find_best_match` and `process_transaction`

`_find_best_match` is modelled parametrically in the scorer (`score`), so
that the selection logic is settled for every similarity function; the
concrete scorer `tokenSortSim` instantiates it for witnesses.  The
memoization cache of the source is modelled away: a cache hit returns the
previously computed value for the same `(description, dictionary)` pair,
which is observationally the computation itself (dictionaries are
immutable). -/

/-- The score of one dictionary entry, scaled to `[0,1]`
(`fuzz.token_sort_ratio(...) / 100.0`).  An entry is a pair
`(short_description, category)`. -/
def entryScore (score : String → String → ℤ) (desc : String)
    (e : String × String) : ℚ := (score desc e.1 : ℚ) / 100

/-- The fold of `_find_best_match` over the dictionary rows:
`best` starts at `(None, 0.0)` and an entry replaces it exactly when its
score is strictly greater. -/
def fbmGo (score : String → String → ℤ) (desc : String) :
    Option String × ℚ → List (String × String) → Option String × ℚ
  | best, [] => best
  | best, e :: rest =>
    fbmGo score desc
      (if best.2 < entryScore score desc e then (some e.2, entryScore score desc e)
       else best) rest

/-- `FuzzyMatcher._find_best_match` (cache miss path): returns the matched
category (or `none`) and the confidence in `[0,1]`. -/
def findBestMatch (score : String → String → ℤ) (desc : String)
    (dict : List (String × String)) : Option String × ℚ :=
  fbmGo score desc (none, 0) dict

/-- Python truthiness for the `industry_category if industry_category else
"N/A"` pattern: `None` and the empty string are falsy. -/
def categoryOrNA : Option String → String
  | none => "N/A"
  | some c => if c = "" then "N/A" else c

/-- The record built by `FuzzyMatcher.process_transaction` (only the fields
added to the transaction are modelled; the original transaction fields are
carried through unchanged by the source). -/
structure FMResult where
  shortDescription : String
  industryCategory : String
  industryConfidence : ℚ
  generalCategory : String
  generalConfidence : Option ℚ
  llmCategory : Option String
deriving DecidableEq

/-- `FuzzyMatcher.process_transaction`, instrumented: the second component
counts how many times the general dictionary is consulted (`_find_best_match`
called on it). -/
def processTransaction (score : String → String → ℤ)
    (industryDict generalDict : List (String × String))
    (threshold : ℚ) (description : String) : FMResult × Nat :=
  let shortDesc := normalize description
  let ind := findBestMatch score shortDesc industryDict
  let base : FMResult :=
    { shortDescription := shortDesc
      industryCategory := categoryOrNA ind.1
      industryConfidence := ind.2
      generalCategory := "N/A"
      generalConfidence := none
      llmCategory := some "N/A" }
  if ind.2 < threshold then
    let gen := findBestMatch score shortDesc generalDict
    let r2 := { base with generalCategory := categoryOrNA gen.1,
                          generalConfidence := some gen.2 }
    if gen.2 < threshold then ({ r2 with llmCategory := none }, 1) else (r2, 1)
  else (base, 0)

/-! ## JSON-ish values and `AICategorizer._validate_group_result` -/

/-- A scalar JSON value, as relevant to the model-response records.  Python
`bool` is a subclass of `int`, so `.bool` carries the numeric value `0`/`1`
through `numVal`. -/
inductive JVal where
  | str : String → JVal
  | num : ℚ → JVal
  | bool : Bool → JVal
  | null : JVal
deriving DecidableEq

/-- The numeric value of a JSON scalar, when `isinstance(v, (int, float))`
holds in Python (`True` and `False` are `int`s with values 1 and 0). -/
def numVal : JVal → Option ℚ
  | .num q => some q
  | .bool b => some (if b then 1 else 0)
  | _ => none

/-- Python truthiness of a JSON scalar (`None`, `""`, `0` and `False` are
falsy). -/
def jvalFalsy : JVal → Bool
  | .null => true
  | .str s => s = ""
  | .num q => q = 0
  | .bool b => !b

/-- One element of the parsed model response, as a record of the three
fields the validator inspects; `none` models an absent key. -/
structure RawResult where
  shortDescription : Option JVal
  llmCategory : Option JVal
  llmConfidence : Option JVal
deriving DecidableEq

/-- `AICategorizer._validate_group_result`: the three required keys are
present, `llm_category` is a member of the valid-category set (a non-string
value is never a member of a set of strings), and `llm_confidence` is an
`int`/`float` (which includes `bool`) between 0 and 1.  The `try/except` of
the source returns `False` on exceptions; the body is total, so no
exception path remains. -/
def validateGroupResult (valid : List String) (g : RawResult) : Bool :=
  g.shortDescription.isSome && g.llmCategory.isSome && g.llmConfidence.isSome &&
  (match g.llmCategory with
   | some (.str c) => valid.contains c
   | _ => false) &&
  (match g.llmConfidence.bind numVal with
   | some q => decide (0 ≤ q) && decide (q ≤ 1)
   | none => false)

/-- The outcome of one `_get_categories` call's externals: `.error ()`
models a transport failure of the model call, `.ok none` a response that
`json.loads` cannot parse, and `.ok (some rs)` a successfully parsed JSON
array of result records. -/
def BatchResp : Type := Except Unit (Option (List RawResult))

/-- `AICategorizer._get_categories`: on transport failure or a parse failure
the surrounding `except` returns `[]`; otherwise the parsed elements are
filtered through `_validate_group_result` (invalid ones are logged and
dropped). -/
def getCategories (valid : List String) (resp : BatchResp) : List RawResult :=
  match resp with
  | .error _ => []
  | .ok none => []
  | .ok (some rs) => rs.filter (validateGroupResult valid)

/-! ## Category ranges and `_calculate_percent_outside_range` -/

/-- The loaded `parent_category_ranges` table: parent category to
`(min_amount, max_amount)`.  It models the Python dict built by
`_load_category_ranges`, whose keys are unique. -/
def RangeTable : Type := List (String × ℚ × ℚ)

/-- Dictionary lookup in the range table. -/
def rangeLookup (ranges : RangeTable) (p : String) : Option (ℚ × ℚ) :=
  (ranges.find? (fun e => e.1 = p)).map (·.2)

/-- The prefix of `s` before the first `:` (`category.split(':')[0]`). -/
def beforeColon (s : String) : String := ⟨s.data.takeWhile (· ≠ ':')⟩

/-- `AICategorizer._get_parent_category` on an arbitrary value: a falsy
category gives `None`; a truthy string is split at `:` and stripped; a
truthy non-string raises `AttributeError` (no `.split`), modelled as
`.error ()`. -/
def getParentCategoryE (category : JVal) : Except Unit (Option String) :=
  if jvalFalsy category then .ok none
  else match category with
    | .str s => .ok (some ⟨pyStrip (beforeColon s).data⟩)
    | _ => .error ()

/-- The `try` body of `_calculate_percent_outside_range`: `.error ()` marks
a raised exception (`AttributeError` from `_get_parent_category`, or
`ZeroDivisionError` when the exceeded bound is 0). -/
def pcorBody (ranges : RangeTable) (amount : ℚ) (category : JVal) :
    Except Unit ℚ :=
  match getParentCategoryE category with
  | .error e => .error e
  | .ok none => .ok 0
  | .ok (some p) =>
    if p = "" then .ok 0
    else match rangeLookup ranges p with
      | none => .ok 0
      | some (mn, mx) =>
        if amount < mn then
          if mn = 0 then .error () else .ok ((amount - mn) / mn * 100)
        else if mx < amount then
          if mx = 0 then .error () else .ok ((amount - mx) / mx * 100)
        else .ok 0

/-- `AICategorizer._calculate_percent_outside_range`: the `except` handler
turns any exception into the result 0. -/
def calcPcor (ranges : RangeTable) (amount : ℚ) (category : JVal) : ℚ :=
  match pcorBody ranges amount category with
  | .ok q => q
  | .error _ => 0

/-! ## `AICategorizer._group_transactions` -/

/-- An input transaction as consumed by `process_transactions`: the fields
`short-description`, `date`, `amount` and the optional `id`. -/
structure TransIn where
  shortDescription : String
  date : String
  amount : ℚ
  id : Option ℤ
deriving DecidableEq

/-- A group under construction: the dict entry created and extended by
`_group_transactions` (the two `llm_*` fields stay `None` throughout
grouping). -/
structure GroupAcc where
  shortDescription : String
  amounts : List ℚ
  dates : List String
  transactionIds : List (Option ℤ)
deriving DecidableEq

/-- A finished transaction group, after the date sort and the frequency
computation. -/
structure TGroup where
  shortDescription : String
  amounts : List ℚ
  dates : List String
  transactionIds : List (Option ℤ)
  frequency : String
deriving DecidableEq

/-- The empty group entry created when a short description is seen for the
first time (`groups[short_desc] = {...}` with empty lists). -/
def freshGroup (t : TransIn) : GroupAcc :=
  { shortDescription := t.shortDescription, amounts := [], dates := [],
    transactionIds := [] }

/-- Append `amount`, `date` and `id` of `t` to the entry holding its short
description (other entries are unchanged). -/
def appendTo (t : TransIn) (g : GroupAcc) : GroupAcc :=
  if g.shortDescription = t.shortDescription then
    { g with amounts := g.amounts ++ [t.amount],
             dates := g.dates ++ [t.date],
             transactionIds := g.transactionIds ++ [t.id] }
  else g

/-- One step of the grouping loop: create the entry if the key is new, then
append `amount`, `date` and `id` to the entry's parallel lists.  (Python
dicts preserve insertion order, modelled by an association list keyed by
`shortDescription`.) -/
def addTrans (acc : List GroupAcc) (t : TransIn) : List GroupAcc :=
  (if acc.any (fun g => g.shortDescription = t.shortDescription) then acc
   else acc ++ [freshGroup t]).map (appendTo t)

/-- Leap year (Gregorian), as in Python's `datetime`. -/
def isLeap (y : ℤ) : Bool := (y % 4 = 0 && y % 100 ≠ 0) || y % 400 = 0

/-- Days in a month. -/
def daysInMonth (y m : ℤ) : ℤ :=
  if m = 2 then (if isLeap y then 29 else 28)
  else if m = 4 || m = 6 || m = 9 || m = 11 then 30
  else 31

/-- Day number of a civil date (days since 1970-01-01, Howard Hinnant's
`days_from_civil` algorithm); used to model `datetime` subtraction
(`(d2 - d1).days`). -/
def daysFromCivil (y m d : ℤ) : ℤ :=
  let y' := if m ≤ 2 then y - 1 else y
  let era := y' / 400
  let yoe := y' - era * 400
  let mp := (m + 9) % 12
  let doy := (153 * mp + 2) / 5 + d - 1
  let doe := yoe * 365 + yoe / 4 - yoe / 100 + doy
  era * 146097 + doe - 719468

/-- The numeric value of a list of ASCII digits, `none` if any character is
not a digit (or the list is empty). -/
def digitsToNat : List Char → Option ℕ
  | [] => none
  | l => if l.all isDig then some (l.foldl (fun n c => n * 10 + (c.toNat - 48)) 0)
         else none

/-- `datetime.strptime(s, '%Y-%m-%d')`, as a day number: the string must be
`YYYY-MM-DD` with a valid calendar date (year at least 1); `none` models the
`ValueError` raised otherwise. -/
def strptimeYMD (s : String) : Option ℤ :=
  match s.data with
  | [y1, y2, y3, y4, '-', m1, m2, '-', d1, d2] =>
    match digitsToNat [y1, y2, y3, y4], digitsToNat [m1, m2], digitsToNat [d1, d2] with
    | some y, some m, some d =>
      if 1 ≤ y && 1 ≤ m && m ≤ 12 && 1 ≤ d && (d : ℤ) ≤ daysInMonth y m then
        some (daysFromCivil y m d)
      else none
    | _, _, _ => none
  | _ => none

/-- The second half of `_group_transactions` for one group: sort the dates
in place (the amounts and ids are untouched) and compute the frequency
text; a `ValueError` from `strptime` propagates (the `except` of
`_group_transactions` logs and re-raises). -/
def finalizeGroup (g : GroupAcc) : Except Unit TGroup :=
  let ds := sortStrings g.dates
  if 1 < ds.length then
    match strptimeYMD (ds.headD ""), strptimeYMD (ds.getLastD "") with
    | some a, some b =>
      .ok { shortDescription := g.shortDescription, amounts := g.amounts,
            dates := ds, transactionIds := g.transactionIds,
            frequency := toString ds.length ++ " times in " ++
                         toString (b - a + 1) ++ " days" }
    | _, _ => .error ()
  else
    .ok { shortDescription := g.shortDescription, amounts := g.amounts,
          dates := ds, transactionIds := g.transactionIds,
          frequency := "1 time" }

/-- Effectful map over `Except` (first error wins), modelling a Python loop
in which an iteration may raise. -/
def mapE (f : α → Except Unit β) : List α → Except Unit (List β)
  | [] => .ok []
  | x :: xs =>
    match f x with
    | .error e => .error e
    | .ok y =>
      match mapE f xs with
      | .error e => .error e
      | .ok ys => .ok (y :: ys)

/-- `AICategorizer._group_transactions`. -/
def groupTransactions (ts : List TransIn) : Except Unit (List TGroup) :=
  mapE finalizeGroup (ts.foldl addTrans [])

/-! ## `_prepare_batches` and the batch loop of `process_transactions` -/

/-- `self.batch_size` set in `AICategorizer.__init__`. -/
def batchSize : ℕ := 5

/-- Worker for `_prepare_batches`: `cur` is the batch under construction. -/
def prepBatchesAux (n : ℕ) (cur : List α) : List α → List (List α)
  | [] => if cur.isEmpty then [] else [cur]
  | g :: gs =>
    let cur' := cur ++ [g]
    if n ≤ cur'.length then cur' :: prepBatchesAux n [] gs
    else prepBatchesAux n cur' gs

/-- `AICategorizer._prepare_batches`: fixed-size chunking preserving order,
with a possibly smaller final chunk. -/
def prepareBatches (n : ℕ) (gs : List α) : List (List α) := prepBatchesAux n [] gs

/-- Storing one validated result into `categorized_groups`
(`categorized_groups[result['short_description']] = {llm_category,
llm_confidence}`): the key and the two stored values.  Validation
guarantees the three fields are present; `.getD .null` totalizes the
(unreachable) missing-key case. -/
def storeKV (r : RawResult) : JVal × JVal × JVal :=
  (r.shortDescription.getD .null, r.llmCategory.getD .null, r.llmConfidence.getD .null)

/-- The batch loop of `process_transactions`: batch `i` is looked up in the
API outcome oracle `api i`; each validated result is written into the
association list in order (a later write to the same key overwrites an
earlier one, read back by `lookupLast`). -/
def runBatches (valid : List String) (api : ℕ → BatchResp) :
    ℕ → List α → List (JVal × JVal × JVal)
  | _, [] => []
  | i, _b :: bs =>
    (getCategories valid (api i)).map storeKV ++ runBatches valid api (i + 1) bs

/-- Dict lookup with last-write-wins semantics over the write log. -/
def lookupLast (m : List (JVal × JVal × JVal)) (k : JVal) : Option (JVal × JVal) :=
  match m with
  | [] => none
  | (k', c, cf) :: rest =>
    match lookupLast rest k with
    | some r => some r
    | none => if k' = k then some (c, cf) else none

/-- A processed transaction: the input fields plus the three fields written
by the merge loop of `process_transactions`. -/
structure PTrans where
  shortDescription : String
  date : String
  amount : ℚ
  id : Option ℤ
  llmCategory : Option JVal
  llmConfidence : Option JVal
  percentOutsideRange : Option ℚ
deriving DecidableEq

/-- The merge loop body of `process_transactions`: look the transaction's
`short-description` up in `categorized_groups`; on a hit attach the LLM
category/confidence and the percent-outside-range, otherwise mark all three
as `None`. -/
def mergeTrans (ranges : RangeTable) (catMap : List (JVal × JVal × JVal))
    (t : TransIn) : PTrans :=
  match lookupLast catMap (.str t.shortDescription) with
  | some (cat, conf) =>
    { shortDescription := t.shortDescription, date := t.date,
      amount := t.amount, id := t.id,
      llmCategory := some cat, llmConfidence := some conf,
      percentOutsideRange := some (calcPcor ranges t.amount cat) }
  | none =>
    { shortDescription := t.shortDescription, date := t.date,
      amount := t.amount, id := t.id,
      llmCategory := none, llmConfidence := none,
      percentOutsideRange := none }

/-- `AICategorizer.process_transactions`: group, batch, categorize each
batch (the per-batch `try` makes batch failures yield no entries), then
re-walk the original transactions attaching results.  An exception from
grouping propagates to the caller. -/
def processTransactions (valid : List String) (ranges : RangeTable)
    (api : ℕ → BatchResp) (ts : List TransIn) : Except Unit (List PTrans) :=
  match groupTransactions ts with
  | .error e => .error e
  | .ok gs =>
    .ok (ts.map (mergeTrans ranges
      (runBatches valid api 0 (prepareBatches batchSize gs))))

/-! ## Claim C4: output alphabet and length of the normalizer -/

theorem string_data_mk (l : List Char) : (String.mk l).data = l := rfl

theorem string_length_mk (l : List Char) : (String.mk l).length = l.length := rfl

/-- C4: for every description string `d`, `normalize d` has length at most
20 and contains only lowercase letters, digits, spaces and `&`.  (The
exception fallback path `description[:20]` of the source is unreachable for
string inputs, because the body of the normalizer is total on strings; the
property therefore holds for the function as executed on every string.) -/
theorem c4_normalize_short_and_clean (d : String) :
    (normalize d).length ≤ 20 ∧ ∀ c ∈ (normalize d).data, isCleanChar c := by
  have hdata : (normalize d).data = normList d.data := string_data_mk (normList d.data)
  have hlen : (normalize d).length = (normList d.data).length :=
    string_length_mk (normList d.data)
  rw [hlen, hdata]
  exact normList_short_and_clean d.data

/-! ## Claim C3: the range-deviation formula -/

/-- C3: for a category string whose parent is configured with range
`(mn, mx)`, `_calculate_percent_outside_range` returns 0 inside the range
and the signed relative deviation from the exceeded bound outside it; with
no configured range it returns 0.  (When the exceeded bound is 0 the source
raises `ZeroDivisionError` and the handler returns 0, which agrees with the
formula under the `ℚ` convention `x / 0 = 0`.) -/
theorem c3_deviation_formula (ranges : RangeTable) (amount : ℚ) (s p : String)
    (hp : getParentCategoryE (.str s) = .ok (some p)) (hpe : p ≠ "") :
    (∀ mn mx, rangeLookup ranges p = some (mn, mx) →
      calcPcor ranges amount (.str s) =
        if amount < mn then (amount - mn) / mn * 100
        else if mx < amount then (amount - mx) / mx * 100
        else 0) ∧
    (rangeLookup ranges p = none → calcPcor ranges amount (.str s) = 0) := by
  constructor
  · intro mn mx hlook
    by_cases h1 : amount < mn
    · by_cases h0 : mn = 0
      · subst h0
        simp [calcPcor, pcorBody, hp, hpe, hlook, h1]
      · simp [calcPcor, pcorBody, hp, hpe, hlook, h1, h0]
    · by_cases h2 : mx < amount
      · by_cases h0 : mx = 0
        · subst h0
          simp [calcPcor, pcorBody, hp, hpe, hlook, h1, h2]
        · simp [calcPcor, pcorBody, hp, hpe, hlook, h1, h2, h0]
      · simp [calcPcor, pcorBody, hp, hpe, hlook, h1, h2]
  · intro hlook
    simp [calcPcor, pcorBody, hp, hpe, hlook]

/-- Witness for C3: `Revenue` configured as `[100, 5000]`; an amount of
150000 on `Revenue: Services` deviates by `+2900` percent. -/
theorem c3_deviation_formula_witness :
    calcPcor [("Revenue", (100, 5000))] 150000 (.str "Revenue: Services") = 2900 :=
  ((c3_deviation_formula [("Revenue", (100, 5000))] 150000 "Revenue: Services"
    "Revenue" (by decide) (by decide)).1 100 5000 (by decide)).trans (by norm_num)

/-! ## Claim C10: totality of `_calculate_percent_outside_range` -/

/-- C10: `_calculate_percent_outside_range` always returns a number: a
`None` category yields 0 through the falsiness check, every raised
exception is caught and turned into 0, and in particular the
`ZeroDivisionError` raised when the exceeded bound is 0 yields 0. -/
theorem c10_pcor_never_raises :
    (∀ (ranges : RangeTable) (amount : ℚ), calcPcor ranges amount .null = 0) ∧
    (∀ (ranges : RangeTable) (amount : ℚ) (category : JVal),
      pcorBody ranges amount category = .error () →
      calcPcor ranges amount category = 0) ∧
    (∀ (ranges : RangeTable) (amount : ℚ) (s p : String) (mx : ℚ),
      getParentCategoryE (.str s) = .ok (some p) → p ≠ "" →
      rangeLookup ranges p = some (0, mx) → amount < 0 →
      calcPcor ranges amount (.str s) = 0) := by
  refine ⟨fun ranges amount => rfl, fun ranges amount category h => by
    simp [calcPcor, h], fun ranges amount s p mx hp hpe hlook h1 => by
    simp [calcPcor, pcorBody, hp, hpe, hlook, h1]⟩

/-- Witness for C10: a parent whose configured minimum is 0 and a negative
amount take the division-by-zero branch; the result is 0. -/
theorem c10_pcor_never_raises_witness :
    calcPcor [("Rev", (0, 10))] (-5) (.str "Rev: X") = 0 :=
  c10_pcor_never_raises.2.2 [("Rev", (0, 10))] (-5) "Rev: X" "Rev" 10
    (by decide) (by decide) (by decide) (by norm_num)

/-! ## Claim C2: the industry short-circuit of `process_transaction` -/

/-- C2: when the industry-dictionary confidence reaches the threshold,
`process_transaction` never consults the general dictionary (the lookup
count stays 0) and the returned record keeps the sentinels
`general-dictionary-category = "N/A"` and confidence `None`. -/
theorem c2_industry_short_circuit (score : String → String → ℤ)
    (industryDict generalDict : List (String × String)) (threshold : ℚ)
    (description : String)
    (h : threshold ≤ (findBestMatch score (normalize description) industryDict).2) :
    (processTransaction score industryDict generalDict threshold description).2 = 0 ∧
    (processTransaction score industryDict generalDict threshold
      description).1.generalCategory = "N/A" ∧
    (processTransaction score industryDict generalDict threshold
      description).1.generalConfidence = none := by
  simp only [processTransaction]
  rw [if_neg (not_lt.mpr h)]
  exact ⟨rfl, rfl, rfl⟩

/-- Witness for C2: `"STARBUCKS 1234"` normalizes to `"starbucks"`, which
matches the industry entry with confidence 1 ≥ 0.8; the general dictionary
is not consulted and its fields keep their sentinels. -/
theorem c2_industry_short_circuit_witness :
    (4/5 : ℚ) ≤ (findBestMatch tokenSortSim (normalize "STARBUCKS 1234")
      [("starbucks", "Meals: Restaurant")]).2 ∧
    (processTransaction tokenSortSim [("starbucks", "Meals: Restaurant")]
      [("grocery store", "Expenses: Groceries")] (4/5) "STARBUCKS 1234").2 = 0 ∧
    (processTransaction tokenSortSim [("starbucks", "Meals: Restaurant")]
      [("grocery store", "Expenses: Groceries")] (4/5)
      "STARBUCKS 1234").1.generalCategory = "N/A" ∧
    (processTransaction tokenSortSim [("starbucks", "Meals: Restaurant")]
      [("grocery store", "Expenses: Groceries")] (4/5)
      "STARBUCKS 1234").1.generalConfidence = none := by
  have hts : tokenSortSim (normalize "STARBUCKS 1234") "starbucks" = 100 := by
    decide
  have h : (4/5 : ℚ) ≤ (findBestMatch tokenSortSim (normalize "STARBUCKS 1234")
      [("starbucks", "Meals: Restaurant")]).2 := by
    norm_num [findBestMatch, fbmGo, entryScore, hts]
  exact ⟨h, c2_industry_short_circuit tokenSortSim _ _ _ _ h⟩

/-! ## Claim C5: the selection logic of `_find_best_match` -/

theorem fbmGo_no_improvement (score : String → String → ℤ) (desc : String) :
    ∀ (l : List (String × String)) (best : Option String × ℚ),
    (∀ e ∈ l, entryScore score desc e ≤ best.2) →
    fbmGo score desc best l = best := by
  intro l
  induction l with
  | nil => intro best _; rfl
  | cons e rest ih =>
    intro best hle
    rw [fbmGo, if_neg (not_lt.mpr (hle e (List.mem_cons_self e rest)))]
    exact ih best (fun e' he' => hle e' (List.mem_cons_of_mem e he'))

theorem fbmGo_first_max (score : String → String → ℤ) (desc : String) :
    ∀ (pre : List (String × String)) (e : String × String)
      (post : List (String × String)) (best : Option String × ℚ),
    best.2 < entryScore score desc e →
    (∀ e' ∈ pre, entryScore score desc e' < entryScore score desc e) →
    (∀ e' ∈ post, entryScore score desc e' ≤ entryScore score desc e) →
    fbmGo score desc best (pre ++ e :: post) =
      (some e.2, entryScore score desc e) := by
  intro pre
  induction pre with
  | nil =>
    intro e post best hlt _ hpost
    rw [List.nil_append, fbmGo, if_pos hlt]
    exact fbmGo_no_improvement score desc post _ (fun e' he' => hpost e' he')
  | cons p pre' ih =>
    intro e post best hlt hpre hpost
    rw [List.cons_append, fbmGo]
    set best' := if best.2 < entryScore score desc p
      then (some p.2, entryScore score desc p) else best with hbdef
    have hb' : best'.2 < entryScore score desc e := by
      by_cases hc : best.2 < entryScore score desc p
      · simpa [hbdef, hc] using hpre p (List.mem_cons_self p pre')
      · simpa [hbdef, hc] using hlt
    exact ih e post best' hb'
      (fun e' he' => hpre e' (List.mem_cons_of_mem p he')) hpost

/-- C5 counterexample: on the non-empty dictionary `[("b", "CatA")]` and key
`"a"`, the sole (hence maximum-scoring) entry scores 0, and the source
returns `(None, 0.0)` instead of that entry's category `"CatA"`: the
running best is only replaced on a strictly greater score, and it starts at
`0.0`. -/
theorem c5_counterexample :
    findBestMatch tokenSortSim "a" [("b", "CatA")] = (none, 0) ∧
    (findBestMatch tokenSortSim "a" [("b", "CatA")]).1 ≠ some "CatA" := by
  have h : tokenSortSim "a" "b" = 0 := by decide
  have he : findBestMatch tokenSortSim "a" [("b", "CatA")] = (none, 0) := by
    norm_num [findBestMatch, fbmGo, entryScore, h]
  exact ⟨he, by rw [he]; simp⟩

/-- C5 (amended): on the empty dictionary `_find_best_match` returns
`(None, 0.0)`; on a non-empty dictionary it returns the category of the
maximum-scoring entry, ties broken in favor of the first-encountered entry,
provided the maximal score is positive; when every entry scores at most 0
it returns `(None, 0.0)` (the initial best score `0.0` is never strictly
beaten). -/
theorem c5_best_match_selection :
    (∀ (score : String → String → ℤ) (desc : String),
      findBestMatch score desc [] = (none, 0)) ∧
    (∀ (score : String → String → ℤ) (desc : String)
       (dict : List (String × String)),
      (∀ e ∈ dict, entryScore score desc e ≤ 0) →
      findBestMatch score desc dict = (none, 0)) ∧
    (∀ (score : String → String → ℤ) (desc : String)
       (pre : List (String × String)) (e : String × String)
       (post : List (String × String)),
      0 < entryScore score desc e →
      (∀ e' ∈ pre, entryScore score desc e' < entryScore score desc e) →
      (∀ e' ∈ post, entryScore score desc e' ≤ entryScore score desc e) →
      findBestMatch score desc (pre ++ e :: post) =
        (some e.2, entryScore score desc e)) := by
  refine ⟨fun score desc => rfl, fun score desc dict hle =>
    fbmGo_no_improvement score desc dict (none, 0) hle,
    fun score desc pre e post hpos hpre hpost =>
    fbmGo_first_max score desc pre e post (none, 0) hpos hpre hpost⟩

/-- Witness for C5: the first entry of a two-entry dictionary scores 100
(scaled to 1) against the key, the second scores 20 (scaled to 0.2); the
first entry's category is returned with confidence 1, and the empty
dictionary returns `(None, 0.0)`. -/
theorem c5_best_match_selection_witness :
    findBestMatch tokenSortSim "starbucks" [("starbucks", "A"), ("b", "B")] =
      (some "A", 1) ∧
    findBestMatch tokenSortSim "x" ([] : List (String × String)) = (none, 0) := by
  have h1 : tokenSortSim "starbucks" "starbucks" = 100 := by decide
  have h2 : tokenSortSim "starbucks" "b" = 20 := by decide
  constructor
  · have h3 := c5_best_match_selection.2.2 tokenSortSim "starbucks" []
      ("starbucks", "A") [("b", "B")]
      (by norm_num [entryScore, h1])
      (by simp)
      (by intro e' he'
          rcases List.mem_singleton.mp he' with rfl
          norm_num [entryScore, h1, h2])
    norm_num [entryScore, h1] at h3
    exact h3
  · exact c5_best_match_selection.1 tokenSortSim "x"

/-! ## Claim C8: the validation boundary of the AI categorizer -/

/-- C8: every element of the validated result list has the three required
fields, an `llm_category` drawn from the valid-category vocabulary, and a
numeric `llm_confidence` in `[0,1]`; an element failing validation is
dropped without affecting the rest of the batch. -/
theorem c8_validated_results :
    (∀ (valid : List String) (resp : BatchResp) (g : RawResult),
      g ∈ getCategories valid resp →
      (g.shortDescription.isSome ∧ g.llmCategory.isSome ∧ g.llmConfidence.isSome) ∧
      (∃ c, g.llmCategory = some (.str c) ∧ c ∈ valid) ∧
      (∃ q, g.llmConfidence.bind numVal = some q ∧ 0 ≤ q ∧ q ≤ 1)) ∧
    (∀ (valid : List String) (bad : RawResult) (rest : List RawResult),
      validateGroupResult valid bad = false →
      getCategories valid (.ok (some (bad :: rest))) =
        getCategories valid (.ok (some rest))) := by
  constructor
  · intro valid resp g hg
    match resp with
    | .error e => simp [getCategories] at hg
    | .ok none => simp [getCategories] at hg
    | .ok (some rs) =>
      have hv := (List.mem_filter.mp hg).2
      rw [validateGroupResult] at hv
      simp only [Bool.and_eq_true] at hv
      obtain ⟨⟨⟨⟨h1, h2⟩, h3⟩, h4⟩, h5⟩ := hv
      refine ⟨⟨h1, h2, h3⟩, ?_, ?_⟩
      · match hcat : g.llmCategory with
        | none => rw [hcat] at h4; cases h4
        | some (.num q) => rw [hcat] at h4; cases h4
        | some (.bool b) => rw [hcat] at h4; cases h4
        | some .null => rw [hcat] at h4; cases h4
        | some (.str c) =>
          rw [hcat] at h4
          exact ⟨c, rfl, List.elem_iff.mp h4⟩
      · match hq : g.llmConfidence.bind numVal with
        | none => rw [hq] at h5; cases h5
        | some q =>
          rw [hq] at h5
          simp only [Bool.and_eq_true, decide_eq_true_eq] at h5
          exact ⟨q, rfl, h5.1, h5.2⟩
  · intro valid bad rest h
    simp [getCategories, List.filter_cons, h]

/-- The fully valid result record used by the C8 witness. -/
def w8res : RawResult :=
  { shortDescription := some (.str "coffee"), llmCategory := some (.str "A"),
    llmConfidence := some (.num 1) }

/-- Witness for C8: a record with all three fields, category `"A"` from the
vocabulary `["A"]` and confidence 1 passes validation and satisfies all
three invariants. -/
theorem c8_validated_results_witness :
    (w8res.shortDescription.isSome ∧ w8res.llmCategory.isSome ∧
      w8res.llmConfidence.isSome) ∧
    (∃ c, w8res.llmCategory = some (.str c) ∧ c ∈ ["A"]) ∧
    (∃ q, w8res.llmConfidence.bind numVal = some q ∧ 0 ≤ q ∧ q ≤ 1) :=
  c8_validated_results.1 ["A"] (.ok (some [w8res])) w8res (by decide)

/-! ## Claim C9: per-batch failure isolation -/

/-- C9: a transport failure or an unparsable model response makes
`_get_categories` return the empty result list (no exception escapes to the
caller), and in the batch loop of `process_transactions` such a batch
contributes nothing while the subsequent batches are processed exactly as
they would have been. -/
theorem c9_batch_failure_isolation :
    (∀ valid : List String, getCategories valid (.error ()) = []) ∧
    (∀ valid : List String, getCategories valid (.ok none) = []) ∧
    (∀ (valid : List String) (api : ℕ → BatchResp) (i : ℕ)
       (b : List TGroup) (bs : List (List TGroup)),
      api i = .error () ∨ api i = .ok none →
      runBatches valid api i (b :: bs) = runBatches valid api (i + 1) bs) := by
  refine ⟨fun _ => rfl, fun _ => rfl, fun valid api i b bs h => ?_⟩
  rw [runBatches]
  rcases h with h | h <;> rw [h] <;> rfl

/-- Witness for C9: with an API oracle that always fails transport, the
first batch contributes nothing and the loop continues with the rest. -/
theorem c9_batch_failure_isolation_witness :
    runBatches [] (fun _ => (Except.error () : BatchResp)) 0
      [([] : List TGroup)] =
    runBatches [] (fun _ => (Except.error () : BatchResp)) 1
      ([] : List (List TGroup)) :=
  c9_batch_failure_isolation.2.2 [] (fun _ => .error ()) 0 [] [] (.inl rfl)

/-! ## Lemmas about the grouping fold (for claims C6 and C7) -/

/-- The first entry of the accumulator with the given short description. -/
def findGroup (l : List GroupAcc) (k : String) : Option GroupAcc :=
  l.find? (fun g => g.shortDescription = k)

/-- The three parallel lists of the entry with the given key (empty lists
when no entry exists). -/
def entryLists (l : List GroupAcc) (k : String) :
    List ℚ × List String × List (Option ℤ) :=
  match findGroup l k with
  | some g => (g.amounts, g.dates, g.transactionIds)
  | none => ([], [], [])

theorem appendTo_shortDescription (t : TransIn) (g : GroupAcc) :
    (appendTo t g).shortDescription = g.shortDescription := by
  unfold appendTo
  split <;> rfl

theorem findGroup_map_appendTo (t : TransIn) (l : List GroupAcc) (k : String) :
    findGroup (l.map (appendTo t)) k = (findGroup l k).map (appendTo t) := by
  unfold findGroup
  rw [List.find?_map]
  have hp : ((fun g => decide (g.shortDescription = k)) ∘ appendTo t) =
      (fun g : GroupAcc => decide (g.shortDescription = k)) := by
    funext g
    simp [Function.comp, appendTo_shortDescription]
  rw [hp]

theorem findGroup_key {l : List GroupAcc} {k : String} {g : GroupAcc}
    (h : findGroup l k = some g) : g.shortDescription = k := by
  unfold findGroup at h
  have h2 := List.find?_some h
  simpa using h2

theorem findGroup_mem {l : List GroupAcc} {k : String} {g : GroupAcc}
    (h : findGroup l k = some g) : g ∈ l := by
  unfold findGroup at h
  exact List.mem_of_find?_eq_some h

theorem findGroup_append (l₁ l₂ : List GroupAcc) (k : String) :
    findGroup (l₁ ++ l₂) k = (findGroup l₁ k).or (findGroup l₂ k) :=
  List.find?_append

/-- The step lemma: one `addTrans` extends exactly the entry of the
transaction's key (creating it if needed) and leaves every other key's
entry unchanged. -/
theorem entryLists_addTrans (acc : List GroupAcc) (t : TransIn) (k : String) :
    entryLists (addTrans acc t) k =
      if t.shortDescription = k then
        ((entryLists acc k).1 ++ [t.amount],
         (entryLists acc k).2.1 ++ [t.date],
         (entryLists acc k).2.2 ++ [t.id])
      else entryLists acc k := by
  by_cases hk : t.shortDescription = k
  · subst hk
    rw [if_pos rfl]
    unfold addTrans
    by_cases hany : acc.any (fun g => g.shortDescription = t.shortDescription)
    · rw [if_pos hany]
      obtain ⟨g, hgmem, hgkey⟩ := List.any_eq_true.mp hany
      have hsome : (findGroup acc t.shortDescription).isSome := by
        rw [findGroup, List.find?_isSome]
        exact ⟨g, hgmem, hgkey⟩
      obtain ⟨g₀, hg₀⟩ := Option.isSome_iff_exists.mp hsome
      have hg₀key : g₀.shortDescription = t.shortDescription := findGroup_key hg₀
      rw [entryLists, findGroup_map_appendTo, hg₀]
      simp [entryLists, hg₀, appendTo, hg₀key]
    · rw [if_neg hany]
      have hnone : findGroup acc t.shortDescription = none := by
        rcases hfind : findGroup acc t.shortDescription with _ | g₀
        · rfl
        · exact absurd (List.any_eq_true.mpr ⟨g₀, findGroup_mem hfind,
            decide_eq_true (findGroup_key hfind)⟩) hany
      have hfresh : findGroup [freshGroup t] t.shortDescription =
          some (freshGroup t) := by
        simp [findGroup, freshGroup, List.find?]
      rw [entryLists, findGroup_map_appendTo, findGroup_append, hnone,
        Option.none_or, hfresh]
      simp [entryLists, hnone, appendTo, freshGroup]
  · rw [if_neg hk]
    unfold addTrans
    by_cases hany : acc.any (fun g => g.shortDescription = t.shortDescription)
    · rw [if_pos hany, entryLists, findGroup_map_appendTo]
      rcases hfind : findGroup acc k with _ | g₀
      · simp [entryLists, hfind]
      · have hg₀key : g₀.shortDescription = k := findGroup_key hfind
        have happ : appendTo t g₀ = g₀ := by
          unfold appendTo
          rw [if_neg (by rw [hg₀key]; exact fun h => hk h.symm)]
        simp [entryLists, hfind, happ]
    · rw [if_neg hany, entryLists, findGroup_map_appendTo, findGroup_append]
      have hfresh : findGroup [freshGroup t] k = none := by
        simp [findGroup, freshGroup, List.find?, hk]
      rw [hfresh, Option.or_none]
      rcases hfind : findGroup acc k with _ | g₀
      · simp [entryLists, hfind]
      · have hg₀key : g₀.shortDescription = k := findGroup_key hfind
        have happ : appendTo t g₀ = g₀ := by
          unfold appendTo
          rw [if_neg (by rw [hg₀key]; exact fun h => hk h.symm)]
        simp [entryLists, hfind, happ]

/-- The characterization of the whole grouping fold: the entry of key `k`
holds exactly the amounts, dates and ids of the transactions with that key,
in input order, appended to whatever the accumulator already held. -/
theorem entryLists_foldl (k : String) :
    ∀ (ts : List TransIn) (acc : List GroupAcc),
    entryLists (ts.foldl addTrans acc) k =
      ((entryLists acc k).1 ++
        (ts.filter (fun t => t.shortDescription = k)).map TransIn.amount,
       (entryLists acc k).2.1 ++
        (ts.filter (fun t => t.shortDescription = k)).map TransIn.date,
       (entryLists acc k).2.2 ++
        (ts.filter (fun t => t.shortDescription = k)).map TransIn.id) := by
  intro ts
  induction ts with
  | nil => intro acc; simp
  | cons t ts ih =>
    intro acc
    rw [List.foldl_cons, ih (addTrans acc t), entryLists_addTrans]
    by_cases hk : t.shortDescription = k
    · rw [if_pos hk]
      simp [List.filter_cons, hk]
    · rw [if_neg hk]
      simp [List.filter_cons, hk]

theorem keys_addTrans (acc : List GroupAcc) (t : TransIn) :
    (addTrans acc t).map GroupAcc.shortDescription =
      if acc.any (fun g => g.shortDescription = t.shortDescription)
      then acc.map GroupAcc.shortDescription
      else acc.map GroupAcc.shortDescription ++ [t.shortDescription] := by
  unfold addTrans
  have hmap : ∀ l : List GroupAcc,
      (l.map (appendTo t)).map GroupAcc.shortDescription =
        l.map GroupAcc.shortDescription := by
    intro l
    rw [List.map_map]
    exact List.map_congr_left (fun g _ => appendTo_shortDescription t g)
  by_cases hany : acc.any (fun g => g.shortDescription = t.shortDescription)
  · rw [if_pos hany, if_pos hany, hmap]
  · rw [if_neg hany, if_neg hany, hmap, List.map_append]
    rfl

theorem nodup_keys_addTrans (acc : List GroupAcc) (t : TransIn)
    (h : (acc.map GroupAcc.shortDescription).Nodup) :
    ((addTrans acc t).map GroupAcc.shortDescription).Nodup := by
  rw [keys_addTrans]
  by_cases hany : acc.any (fun g => g.shortDescription = t.shortDescription)
  · rwa [if_pos hany]
  · rw [if_neg hany, List.nodup_append]
    refine ⟨h, List.nodup_singleton _, ?_⟩
    intro x hx hx2
    rcases List.mem_singleton.mp hx2 with rfl
    obtain ⟨g, hg, hgk⟩ := List.mem_map.mp hx
    exact hany (List.any_eq_true.mpr ⟨g, hg, decide_eq_true hgk⟩)

theorem nodup_keys_foldl :
    ∀ (ts : List TransIn) (acc : List GroupAcc),
    (acc.map GroupAcc.shortDescription).Nodup →
    ((ts.foldl addTrans acc).map GroupAcc.shortDescription).Nodup := by
  intro ts
  induction ts with
  | nil => intro acc h; exact h
  | cons t ts ih =>
    intro acc h
    rw [List.foldl_cons]
    exact ih (addTrans acc t) (nodup_keys_addTrans acc t h)

theorem findGroup_self :
    ∀ (l : List GroupAcc), (l.map GroupAcc.shortDescription).Nodup →
    ∀ g ∈ l, findGroup l g.shortDescription = some g := by
  intro l
  induction l with
  | nil => intro _ g hg; simp at hg
  | cons a l' ih =>
    intro hnd g hg
    rw [List.map_cons, List.nodup_cons] at hnd
    rcases List.mem_cons.mp hg with rfl | hg'
    · unfold findGroup
      exact List.find?_cons_of_pos _ (decide_eq_true rfl)
    · have hne : ¬a.shortDescription = g.shortDescription := by
        intro he
        exact hnd.1 (he ▸ List.mem_map_of_mem GroupAcc.shortDescription hg')
      unfold findGroup
      rw [List.find?_cons_of_neg _ (by simpa using hne)]
      exact ih hnd.2 g hg'

theorem dates_ne_nil_addTrans (acc : List GroupAcc) (t : TransIn)
    (h : ∀ g ∈ acc, g.dates ≠ []) : ∀ g ∈ addTrans acc t, g.dates ≠ [] := by
  intro g hg
  unfold addTrans at hg
  rcases List.mem_map.mp hg with ⟨g₀, hg₀, rfl⟩
  have hg₀src : g₀ ∈ acc ∨ g₀ = freshGroup t := by
    by_cases hany : acc.any (fun g => g.shortDescription = t.shortDescription)
    · rw [if_pos hany] at hg₀; exact .inl hg₀
    · rw [if_neg hany] at hg₀
      rcases List.mem_append.mp hg₀ with h1 | h2
      · exact .inl h1
      · exact .inr (List.mem_singleton.mp h2)
  unfold appendTo
  split
  · show g₀.dates ++ [t.date] ≠ []
    exact List.append_ne_nil_of_right_ne_nil _ (by simp)
  · next hne =>
    rcases hg₀src with h1 | rfl
    · exact h g₀ h1
    · exact (hne rfl).elim

theorem dates_ne_nil_foldl :
    ∀ (ts : List TransIn) (acc : List GroupAcc), (∀ g ∈ acc, g.dates ≠ []) →
    ∀ g ∈ ts.foldl addTrans acc, g.dates ≠ [] := by
  intro ts
  induction ts with
  | nil => intro acc h; exact h
  | cons t ts ih =>
    intro acc h
    rw [List.foldl_cons]
    exact ih (addTrans acc t) (dates_ne_nil_addTrans acc t h)

theorem mapE_ok_mem {α β : Type} {f : α → Except Unit β} :
    ∀ {l : List α} {ys : List β}, mapE f l = .ok ys →
    ∀ y ∈ ys, ∃ x ∈ l, f x = .ok y := by
  intro l
  induction l with
  | nil =>
    intro ys h y hy
    rw [mapE] at h
    injection h with h'
    subst h'
    simp at hy
  | cons x xs ih =>
    intro ys h y hy
    rw [mapE] at h
    rcases hfx : f x with e | y₀
    · rw [hfx] at h; cases h
    · rw [hfx] at h
      rcases hrest : mapE f xs with e | ys'
      · rw [hrest] at h; cases h
      · rw [hrest] at h
        injection h with h'
        subst h'
        rcases List.mem_cons.mp hy with rfl | hy'
        · exact ⟨x, List.mem_cons_self _ _, hfx⟩
        · obtain ⟨x', hx', hfx'⟩ := ih hrest y hy'
          exact ⟨x', List.mem_cons_of_mem _ hx', hfx'⟩

theorem finalizeGroup_ok {g : GroupAcc} {g' : TGroup}
    (h : finalizeGroup g = .ok g') :
    g'.shortDescription = g.shortDescription ∧ g'.amounts = g.amounts ∧
    g'.transactionIds = g.transactionIds ∧ g'.dates = sortStrings g.dates := by
  simp only [finalizeGroup] at h
  split at h
  · split at h
    · injection h with h'
      subst h'
      exact ⟨rfl, rfl, rfl, rfl⟩
    · cases h
  · injection h with h'
    subst h'
    exact ⟨rfl, rfl, rfl, rfl⟩

theorem length_strInsert (s : String) :
    ∀ l : List String, (strInsert s l).length = l.length + 1 := by
  intro l
  induction l with
  | nil => rfl
  | cons t ts ih =>
    rw [strInsert]
    split
    · rfl
    · rw [List.length_cons, ih]
      rfl

theorem length_sortStrings :
    ∀ l : List String, (sortStrings l).length = l.length := by
  intro l
  induction l with
  | nil => rfl
  | cons s ss ih =>
    rw [sortStrings, length_strInsert, ih, List.length_cons]

/-! ## Claim C7: insertion order of `amounts` and `transaction_ids` -/

/-- C7: in every group produced by `_group_transactions`, `amounts` and
`transaction_ids` keep the input insertion order of the transactions with
that short description; only the `dates` list is sorted. -/
theorem c7_group_order_preservation :
    ∀ (ts : List TransIn) (gs : List TGroup), groupTransactions ts = .ok gs →
    ∀ g ∈ gs,
      g.amounts = (ts.filter (fun t =>
        t.shortDescription = g.shortDescription)).map TransIn.amount ∧
      g.transactionIds = (ts.filter (fun t =>
        t.shortDescription = g.shortDescription)).map TransIn.id ∧
      g.dates = sortStrings ((ts.filter (fun t =>
        t.shortDescription = g.shortDescription)).map TransIn.date) := by
  intro ts gs hok g hg
  rw [groupTransactions] at hok
  obtain ⟨g₀, hg₀mem, hfin⟩ := mapE_ok_mem hok g hg
  obtain ⟨hkey, hamt, hids, hdates⟩ := finalizeGroup_ok hfin
  have hnd := nodup_keys_foldl ts [] (by simp)
  have hself := findGroup_self _ hnd g₀ hg₀mem
  have hent : entryLists (ts.foldl addTrans []) g₀.shortDescription =
      (g₀.amounts, g₀.dates, g₀.transactionIds) := by
    rw [entryLists, hself]
  have hent0 : entryLists ([] : List GroupAcc) g₀.shortDescription =
      ([], [], []) := rfl
  have hfold := entryLists_foldl g₀.shortDescription ts []
  rw [hent, hent0] at hfold
  simp only [List.nil_append, Prod.mk.injEq] at hfold
  exact ⟨by rw [hamt, hkey]; exact hfold.1,
         by rw [hids, hkey]; exact hfold.2.2,
         by rw [hdates, hkey, hfold.2.1]⟩

/-- Transactions of the C7 witness: two share the key `"a"` with unsorted
dates, one has key `"b"`. -/
def c7ts : List TransIn :=
  [⟨"a", "2024-01-02", 5, some 1⟩, ⟨"b", "2024-01-01", 7, some 2⟩,
   ⟨"a", "2024-01-01", 3, some 3⟩]

/-- Expected `"a"` group of the C7 witness: amounts and ids in insertion
order, dates sorted. -/
def c7ga : TGroup :=
  ⟨"a", [5, 3], ["2024-01-01", "2024-01-02"], [some 1, some 3],
   "2 times in 2 days"⟩

/-- Expected `"b"` group of the C7 witness. -/
def c7gb : TGroup := ⟨"b", [7], ["2024-01-01"], [some 2], "1 time"⟩

/-- Witness for C7: the `"a"` group keeps amounts `[5, 3]` and ids
`[1, 3]` in insertion order while its dates are sorted ascending. -/
theorem c7_group_order_preservation_witness :
    groupTransactions c7ts = .ok [c7ga, c7gb] ∧
    c7ga.amounts = (c7ts.filter (fun t =>
      t.shortDescription = c7ga.shortDescription)).map TransIn.amount ∧
    c7ga.transactionIds = (c7ts.filter (fun t =>
      t.shortDescription = c7ga.shortDescription)).map TransIn.id ∧
    c7ga.dates = sortStrings ((c7ts.filter (fun t =>
      t.shortDescription = c7ga.shortDescription)).map TransIn.date) := by
  have h : groupTransactions c7ts = .ok [c7ga, c7gb] := by decide
  exact ⟨h, c7_group_order_preservation c7ts [c7ga, c7gb] h c7ga (by decide)⟩

/-! ## Claim C6: the frequency text of the grouper -/

/-- The frequency formula as stated by claim C6, over the (already
ascending-sorted) date list of a finished group: `"1 time"` for a single
date, otherwise `"<n> times in <d> days"` with `d` the day difference
between the last and first date plus one; `none` when a date does not
parse. -/
def freqClaim (dates : List String) : Option String :=
  if dates.length = 1 then some "1 time"
  else
    match strptimeYMD (dates.headD ""), strptimeYMD (dates.getLastD "") with
    | some a, some b =>
      some (toString dates.length ++ " times in " ++ toString (b - a + 1) ++
        " days")
    | _, _ => none

theorem finalizeGroup_freq {g : GroupAcc} {g' : TGroup} (hne : g.dates ≠ [])
    (h : finalizeGroup g = .ok g') : freqClaim g'.dates = some g'.frequency := by
  simp only [finalizeGroup] at h
  split at h
  · rename_i h1
    rcases ha : strptimeYMD ((sortStrings g.dates).headD "") with _ | a <;>
      rcases hb : strptimeYMD ((sortStrings g.dates).getLastD "") with _ | b <;>
      rw [ha, hb] at h <;> try simp at h
    subst h
    have hlen : ¬(sortStrings g.dates).length = 1 := by omega
    show freqClaim (sortStrings g.dates) = some (toString
      (sortStrings g.dates).length ++ " times in " ++ toString (b - a + 1) ++
      " days")
    rw [freqClaim, if_neg hlen, ha, hb]
  · rename_i h1
    injection h with h'
    subst h'
    have hl0 : g.dates.length ≠ 0 := fun h0 => hne (List.length_eq_zero.mp h0)
    have hsl := length_sortStrings g.dates
    have hlen : (sortStrings g.dates).length = 1 := by omega
    simp [freqClaim, hlen]

/-- First transaction of the C6 example (the later date comes first). -/
def c6t1 : TransIn := ⟨"k", "2024-03-05", 10, some 1⟩

/-- Second transaction of the C6 example. -/
def c6t2 : TransIn := ⟨"k", "2024-03-01", 20, some 2⟩

/-- The group produced for the C6 example: dates sorted ascending and
frequency `"2 times in 5 days"`. -/
def c6group : TGroup :=
  ⟨"k", [10, 20], ["2024-03-01", "2024-03-05"], [some 1, some 2],
   "2 times in 5 days"⟩

/-- C6: the frequency text of every group is `"1 time"` for a single date
and otherwise `"<n> times in <d> days"` with `d` the inclusive day span of
the sorted dates; in particular the group with input dates
`["2024-03-05", "2024-03-01"]` gets `"2 times in 5 days"`. -/
theorem c6_grouper_frequency :
    (∀ (ts : List TransIn) (gs : List TGroup), groupTransactions ts = .ok gs →
      ∀ g ∈ gs, freqClaim g.dates = some g.frequency) ∧
    groupTransactions [c6t1, c6t2] = .ok [c6group] := by
  constructor
  · intro ts gs hok g hg
    rw [groupTransactions] at hok
    obtain ⟨g₀, hg₀mem, hfin⟩ := mapE_ok_mem hok g hg
    exact finalizeGroup_freq (dates_ne_nil_foldl ts [] (by simp) g₀ hg₀mem) hfin
  · decide

/-- Witness for C6: the frequency of the example group satisfies the claim
formula. -/
theorem c6_grouper_frequency_witness :
    freqClaim c6group.dates = some c6group.frequency :=
  c6_grouper_frequency.1 [c6t1, c6t2] [c6group] (by decide) c6group (by decide)

/-! ## Claim C1: `percent_outside_range` when the parent has no range -/

/-- Valid categories of the C1 example. -/
def c1valid : List String := ["Foo: Bar"]

/-- API oracle of the C1 example: every batch is answered with one valid
result assigning category `"Foo: Bar"` (whose parent `"Foo"` has no
configured range) with confidence 1. -/
def c1api : ℕ → BatchResp := fun _ =>
  .ok (some [{ shortDescription := some (.str "k"),
               llmCategory := some (.str "Foo: Bar"),
               llmConfidence := some (.num 1) }])

/-- The single input transaction of the C1 example. -/
def c1ts : List TransIn := [⟨"k", "2024-01-01", 50, some 1⟩]

/-- The processed transaction the C1 example produces: it received an AI
categorization, and its `percent_outside_range` is `0`, not `None`. -/
def c1out : PTrans :=
  ⟨"k", "2024-01-01", 50, some 1, some (.str "Foo: Bar"), some (.num 1),
   some 0⟩

/-- C1 counterexample: with an empty range table, a transaction categorized
as `"Foo: Bar"` (parent `"Foo"` has no configured range) ends with
`percent_outside_range = 0`, which is not null — the claim's `null` is
wrong for this input. -/
theorem c1_counterexample :
    processTransactions c1valid [] c1api c1ts = .ok [c1out] ∧
    c1out.llmCategory = some (.str "Foo: Bar") ∧
    getParentCategoryE (.str "Foo: Bar") = .ok (some "Foo") ∧
    rangeLookup [] "Foo" = none ∧
    c1out.percentOutsideRange = some 0 ∧
    some (0 : ℚ) ≠ (none : Option ℚ) :=
  ⟨by decide, rfl, by decide, rfl, rfl, by simp⟩

/-- C1 (amended): for every transaction that received an AI categorization
whose category's parent has no configured range in the CategoryRange table,
`percent_outside_range` is `0` (not null; it is null exactly for
transactions that received no categorization). -/
theorem c1_no_range_gives_zero :
    ∀ (valid : List String) (ranges : RangeTable) (api : ℕ → BatchResp)
      (ts : List TransIn) (pts : List PTrans) (p : PTrans) (c pc : String),
    processTransactions valid ranges api ts = .ok pts → p ∈ pts →
    p.llmCategory = some (.str c) →
    getParentCategoryE (.str c) = .ok (some pc) →
    rangeLookup ranges pc = none →
    p.percentOutsideRange = some 0 := by
  intro valid ranges api ts pts p c pc hok hmem hcat hpc hlook
  rw [processTransactions] at hok
  rcases hgroup : groupTransactions ts with e | gs <;> rw [hgroup] at hok
  · cases hok
  · injection hok with hok'
    subst hok'
    obtain ⟨t, ht, rfl⟩ := List.mem_map.mp hmem
    rcases hl : lookupLast (runBatches valid api 0 (prepareBatches batchSize gs))
        (.str t.shortDescription) with _ | pr
    · rw [mergeTrans, hl] at hcat
      cases hcat
    · obtain ⟨cat, conf⟩ := pr
      rw [mergeTrans, hl] at hcat ⊢
      injection hcat with hcat'
      subst hcat'
      show some (calcPcor ranges t.amount (.str c)) = some 0
      by_cases hpe : pc = ""
      · simp [calcPcor, pcorBody, hpc, hpe]
      · simp [calcPcor, pcorBody, hpc, hpe, hlook]

/-- Witness for the amended C1: the concrete example run evaluates to
`percent_outside_range = 0`. -/
theorem c1_no_range_gives_zero_witness :
    c1out.percentOutsideRange = some 0 :=
  c1_no_range_gives_zero c1valid [] c1api c1ts [c1out] c1out "Foo: Bar" "Foo"
    (by decide) (by decide) (by decide) (by decide) rfl

end FSB
